import Mathlib

/-!
# Verification of `multiset-hash` (`src/lib.rs`)

The crate implements a commutative, incremental hash for multisets of byte
strings on top of two external primitives:

* a 512-bit digest `H` (generic parameter; fed incrementally via `update`,
  reset to a fresh state at each element boundary), and
* the Ristretto group from `curve25519_dalek`: a cyclic abelian group of
  prime order
  `ℓ = 2^252 + 27742317777372353535851937790883648493`,
  with `Scalar::from(u64)` reducing an integer into `ZMod ℓ`,
  scalar multiplication, `RistrettoPoint::from_hash` mapping a digest state
  to a group element, and a canonical injective 32-byte compression.

Shallow embedding choices:

* Bytes are modelled as `ℕ`; a byte string is a `List ℕ`.
* The incremental digest state is modelled by the list of bytes fed into it
  since it was last fresh (`Digest::update` concatenates input).
* The composite `RistrettoPoint::from_hash ∘ H-finalize` is an arbitrary
  function parameter `fh : List ℕ → Point`: every theorem holds for every
  choice of digest and hash-to-group map.
* The Ristretto group is cyclic of prime order `ℓ`, hence isomorphic to
  `ZMod ℓ` as an additive group; we take `Point := ZMod ℓ` and
  `Scalar::from m * p` becomes `(m : Point) * p` (the cast is exactly
  reduction mod the scalar order).
* `panic!` on a `&mut self` method is modelled by returning the state held
  at the moment of the panic together with an `Except` error: the pair
  `(state, result)` is the post-call state and outcome of the call.
-/

namespace MultisetHash

/-- Order of the Ristretto group: `2^252 + 27742317777372353535851937790883648493`
(the prime order of the prime-order subgroup of curve25519). -/
def L : ℕ := 7237005577332262213973186563042994240857116359379907606001950938285454250989

/-- The Ristretto group, modelled up to isomorphism as the cyclic additive
group of its (prime) order.  `RistrettoPoint::default()` is the identity `0`. -/
abbrev Point := ZMod L

/-- The single failure kind of the crate: `add`/`finalize` panic with a
protocol-violation message when called while an `update` is pending. -/
inductive Error where
  | protocolViolation
deriving DecidableEq, Repr

/-- The state of `RistrettoHash<H>` (`src/lib.rs`, lines 70-77):
`hash` is the incremental digest state, modelled as the bytes fed into it
since it was last fresh; `updating` is the pending flag; `acc` is the
running group-element sum. -/
structure RistrettoHash where
  hash : List ℕ
  updating : Bool
  acc : Point
deriving DecidableEq

namespace RistrettoHash

/-- `RistrettoHash::default()`: fresh digest state, flag clear, identity sum. -/
def empty : RistrettoHash := ⟨[], false, 0⟩

/-- `Update::update` (lines 144-147): sets the pending flag and feeds the
chunk into the digest state. -/
def update (s : RistrettoHash) (data : List ℕ) : RistrettoHash :=
  ⟨s.hash ++ data, true, s.acc⟩

/-- `end_update` (lines 99-105): clears the pending flag, swaps the digest
state for a fresh one, maps the old state to a group element, scales it by
the multiplicity reduced into the scalar field, and folds it into the sum.
`fh` is the composite `RistrettoPoint::from_hash ∘ digest-finalize`. -/
def end_update (fh : List ℕ → Point) (s : RistrettoHash) (m : ℕ) : RistrettoHash :=
  ⟨[], false, s.acc + (m : Point) * fh s.hash⟩

/-- `add` (lines 84-90): panics if the pending flag is set (before touching
any state), otherwise feeds the bytes into the digest state and commits via
`end_update`.  The returned pair is (state after the call, outcome). -/
def add (fh : List ℕ → Point) (s : RistrettoHash) (data : List ℕ) (m : ℕ) :
    RistrettoHash × Except Error Unit :=
  if s.updating = true then (s, Except.error Error.protocolViolation)
  else (end_update fh ⟨s.hash ++ data, s.updating, s.acc⟩ m, Except.ok ())

/-- `Reset::reset` (lines 128-132): fresh digest state, flag cleared, sum
reset to the identity. -/
def reset (_s : RistrettoHash) : RistrettoHash := ⟨[], false, 0⟩

/-- `compress` models `RistrettoPoint::compress`: the canonical injective
32-byte little-endian encoding of a group element. -/
def compress (p : Point) : List ℕ :=
  (List.range 32).map fun i => p.val / 256 ^ i % 256

/-- `FixedOutput::finalize_into` (lines 111-116), and the derived consuming
`finalize()`: panics if the pending flag is set, otherwise outputs the
compressed running sum.  The instance is consumed, so only the outcome is
returned. -/
def finalize_into (s : RistrettoHash) : Except Error (List ℕ) :=
  if s.updating = true then Except.error Error.protocolViolation
  else Except.ok (compress s.acc)

/-- `FixedOutput::finalize_into_reset` (lines 118-124), and the derived
`finalize_reset()`: panics if the pending flag is set (before touching any
state), otherwise outputs the compressed running sum and resets the
instance.  The returned pair is (state after the call, outcome). -/
def finalize_into_reset (s : RistrettoHash) : RistrettoHash × Except Error (List ℕ) :=
  if s.updating = true then (s, Except.error Error.protocolViolation)
  else (reset s, Except.ok (compress s.acc))

/-- `n` sequential calls `add(x, 1)`, threading the state and stopping at
the first panic. -/
def addN (fh : List ℕ → Point) (s : RistrettoHash) (x : List ℕ) : ℕ → RistrettoHash × Except Error Unit
  | 0 => (s, Except.ok ())
  | n + 1 =>
    match add fh s x 1 with
    | (s', Except.ok _) => addN fh s' x n
    | (s', Except.error e) => (s', Except.error e)

end RistrettoHash

/-- One call of the public mutating API, for stating trace invariants. -/
inductive Op where
  | update (data : List ℕ)
  | end_update (m : ℕ)
  | add (data : List ℕ) (m : ℕ)
  | reset
deriving DecidableEq

/-- Execute one operation: `(state after the call, outcome)`. -/
def step (fh : List ℕ → Point) (s : RistrettoHash) : Op → RistrettoHash × Except Error Unit
  | Op.update d => (s.update d, Except.ok ())
  | Op.end_update m => (RistrettoHash.end_update fh s m, Except.ok ())
  | Op.add d m => RistrettoHash.add fh s d m
  | Op.reset => (s.reset, Except.ok ())

/-- Execute a sequence of operations from state `s`, stopping at the first
panic. -/
def run (fh : List ℕ → Point) (s : RistrettoHash) : List Op → RistrettoHash × Except Error Unit
  | [] => (s, Except.ok ())
  | op :: ops =>
    match step fh s op with
    | (s', Except.ok _) => run fh s' ops
    | (s', Except.error e) => (s', Except.error e)

/-- The pending-flag value an operation leaves behind: `update` sets the
flag, each commit (`end_update`, `add`) and each `reset` clears it. -/
def flagOf : Op → Bool
  | Op.update _ => true
  | Op.end_update _ => false
  | Op.add _ _ => false
  | Op.reset => false

/-- The value of the pending flag dictated by a trace, starting from flag
value `b`. -/
def pendingAfter (b : Bool) : List Op → Bool
  | [] => b
  | op :: ops => pendingAfter (flagOf op) ops

/-- A trivial concrete digest/hash-to-group map, used to instantiate
universally quantified statements at concrete inputs. -/
def fhZero : List ℕ → Point := fun _ => 0

/-- From an idle state, `n` sequential `add(x, 1)` calls all succeed and
fold `n • fh x` into the accumulator. -/
theorem addN_idle (fh : List ℕ → Point) (x : List ℕ) :
    ∀ (n : ℕ) (a : Point),
      RistrettoHash.addN fh ⟨[], false, a⟩ x n =
        (⟨[], false, a + (n : Point) * fh x⟩, Except.ok ()) := by
  intro n
  induction n with
  | zero =>
    intro a
    simp [RistrettoHash.addN]
  | succ n ih =>
    intro a
    rw [RistrettoHash.addN]
    simp only [RistrettoHash.add, RistrettoHash.end_update, Bool.false_eq_true, if_false,
      List.nil_append, Nat.cast_one, one_mul]
    rw [ih]
    have : a + fh x + (n : Point) * fh x = a + ((n : ℕ) + 1 : ℕ) * fh x := by
      push_cast
      ring
    rw [this]

/-- The pending flag of the final state of a successful run is determined
by the trace alone: it is the `pendingAfter` fold of the operations. -/
theorem run_ok_updating (fh : List ℕ → Point) :
    ∀ (ops : List Op) (s₀ s : RistrettoHash),
      run fh s₀ ops = (s, Except.ok ()) →
      s.updating = pendingAfter s₀.updating ops := by
  intro ops
  induction ops with
  | nil =>
    intro s₀ s h
    simp only [run, Prod.mk.injEq] at h
    rw [← h.1, pendingAfter]
  | cons op ops ih =>
    intro s₀ s h
    cases op with
    | update d =>
      simp only [run, step] at h
      have := ih (s₀.update d) s h
      simpa [pendingAfter, flagOf, RistrettoHash.update] using this
    | end_update m =>
      simp only [run, step] at h
      have := ih (RistrettoHash.end_update fh s₀ m) s h
      simpa [pendingAfter, flagOf, RistrettoHash.end_update] using this
    | add d m =>
      by_cases hu : s₀.updating = true
      · simp only [run, step, RistrettoHash.add, if_pos hu] at h
        simp at h
      · simp only [run, step, RistrettoHash.add, if_neg hu] at h
        have := ih (RistrettoHash.end_update fh ⟨s₀.hash ++ d, s₀.updating, s₀.acc⟩ m) s h
        simpa [pendingAfter, flagOf, RistrettoHash.end_update] using this
    | reset =>
      simp only [run, step] at h
      have := ih s₀.reset s h
      simpa [pendingAfter, flagOf, RistrettoHash.reset] using this

/-- The `pendingAfter` fold is `true` exactly when the last operation of the
trace is an `update`, or the trace is empty and the initial flag was set. -/
theorem pendingAfter_true_iff :
    ∀ (ops : List Op) (b : Bool),
      (pendingAfter b ops = true ↔
        (∃ d, ops.getLast? = some (Op.update d)) ∨ (ops = [] ∧ b = true)) := by
  intro ops
  induction ops with
  | nil =>
    intro b
    simp [pendingAfter]
  | cons op ops ih =>
    intro b
    cases ops with
    | nil =>
      cases op <;> simp [pendingAfter, flagOf]
    | cons op2 ops2 =>
      rw [pendingAfter, ih, List.getLast?_cons_cons]
      simp

/-- C1: for any byte string `x` and any `n ≥ 0`, `add(x, n)` on an idle
accumulator (pending flag clear, digest state fresh) produces the same
state and outcome as `n` sequential calls of `add(x, 1)`; more generally a
total multiplicity split into `m₁ + m₂` across two `add` calls yields the
same final sum as one call with `m₁ + m₂`. -/
theorem mult_folding (fh : List ℕ → Point) (s : RistrettoHash) (x : List ℕ)
    (n m₁ m₂ : ℕ) (hu : s.updating = false) (hh : s.hash = []) :
    RistrettoHash.add fh s x n = RistrettoHash.addN fh s x n ∧
    (RistrettoHash.add fh (RistrettoHash.add fh s x m₁).1 x m₂).1 =
      (RistrettoHash.add fh s x (m₁ + m₂)).1 := by
  obtain ⟨hash, upd, a⟩ := s
  simp only at hu hh
  subst hu hh
  constructor
  · rw [addN_idle]
    simp [RistrettoHash.add, RistrettoHash.end_update]
  · simp only [RistrettoHash.add, RistrettoHash.end_update, Bool.false_eq_true, if_false,
      List.nil_append, Prod.mk.injEq, RistrettoHash.mk.injEq, true_and]
    push_cast
    ring

/-- C2: committing element `a` with multiplicity `ma` and then `b` with
`mb` into a fresh accumulator yields exactly the same state and outcome as
committing `b` then `a`. -/
theorem hash_commutative (fh : List ℕ → Point) (a b : List ℕ) (ma mb : ℕ) :
    RistrettoHash.add fh (RistrettoHash.add fh RistrettoHash.empty a ma).1 b mb =
      RistrettoHash.add fh (RistrettoHash.add fh RistrettoHash.empty b mb).1 a ma := by
  simp only [RistrettoHash.empty, RistrettoHash.add, RistrettoHash.end_update,
    Bool.false_eq_true, if_false, List.nil_append, Prod.mk.injEq, RistrettoHash.mk.injEq,
    true_and, and_true]
  ring

/-- C3: from any state whose pending flag is clear,
`update(c1); update(c2); end_update(m)` produces exactly the state that
`add(c1 ++ c2, m)` produces (and the latter succeeds). -/
theorem chunked_equiv (fh : List ℕ → Point) (s : RistrettoHash) (c1 c2 : List ℕ)
    (m : ℕ) (hu : s.updating = false) :
    RistrettoHash.add fh s (c1 ++ c2) m =
      (RistrettoHash.end_update fh ((s.update c1).update c2) m, Except.ok ()) := by
  simp [RistrettoHash.add, RistrettoHash.end_update, RistrettoHash.update, hu,
    List.append_assoc]

/-- C4: `add`, `finalize` and `finalize_and_reset` fail with
`ProtocolViolation` exactly when the pending flag is set; `update`,
`end_update` and `reset` always succeed. -/
theorem guard_condition (fh : List ℕ → Point) (s : RistrettoHash) (d : List ℕ) (m : ℕ) :
    ((RistrettoHash.add fh s d m).2 = Except.error Error.protocolViolation ↔
      s.updating = true) ∧
    (RistrettoHash.finalize_into s = Except.error Error.protocolViolation ↔
      s.updating = true) ∧
    ((RistrettoHash.finalize_into_reset s).2 = Except.error Error.protocolViolation ↔
      s.updating = true) ∧
    (step fh s (Op.update d)).2 = Except.ok () ∧
    (step fh s (Op.end_update m)).2 = Except.ok () ∧
    (step fh s Op.reset).2 = Except.ok () := by
  cases hu : s.updating <;>
    simp [RistrettoHash.add, RistrettoHash.finalize_into, RistrettoHash.finalize_into_reset,
      step, hu]

/-- C5: for every state whose pending flag is clear, `add(x, 0)` succeeds
and leaves the running sum unchanged, so the final digest is unchanged. -/
theorem zero_mult (fh : List ℕ → Point) (s : RistrettoHash) (x : List ℕ)
    (hu : s.updating = false) :
    RistrettoHash.add fh s x 0 = (⟨[], false, s.acc⟩, Except.ok ()) ∧
    RistrettoHash.finalize_into (RistrettoHash.add fh s x 0).1 =
      RistrettoHash.finalize_into s := by
  constructor
  · simp [RistrettoHash.add, RistrettoHash.end_update, hu]
  · simp [RistrettoHash.add, RistrettoHash.end_update, RistrettoHash.finalize_into, hu]

/-- C6: in every state reachable from a fresh accumulator by a successful
trace, the pending flag is set iff the last operation of the trace is an
`update` — i.e. at least one chunk was fed since the last commit or reset
and no commit occurred since; moreover `update` always sets the flag, and
`end_update` and `reset` always clear it. -/
theorem pending_flag_invariant (fh : List ℕ → Point) (ops : List Op)
    (s t : RistrettoHash) (d : List ℕ) (m : ℕ)
    (h : run fh RistrettoHash.empty ops = (s, Except.ok ())) :
    (s.updating = true ↔ ∃ d0, ops.getLast? = some (Op.update d0)) ∧
    (t.update d).updating = true ∧
    (RistrettoHash.end_update fh t m).updating = false ∧
    t.reset.updating = false := by
  refine ⟨?_, rfl, rfl, rfl⟩
  rw [run_ok_updating fh ops RistrettoHash.empty s h]
  rw [pendingAfter_true_iff]
  simp [RistrettoHash.empty]

/-- C7: `reset()` puts any state into exactly the initial state of a fresh
accumulator, and `finalize()` of a never-touched accumulator succeeds with
the compressed group identity. -/
theorem reset_equiv (s : RistrettoHash) :
    s.reset = RistrettoHash.empty ∧
    RistrettoHash.finalize_into RistrettoHash.empty =
      Except.ok (RistrettoHash.compress 0) := by
  exact ⟨rfl, rfl⟩

/-- C8: from an idle state (flag clear, digest state fresh), `end_update(m)`
commits the digest of the empty byte string with multiplicity `m`, and is
exactly what `add([], m)` does (which succeeds). -/
theorem end_update_no_update (fh : List ℕ → Point) (s : RistrettoHash) (m : ℕ)
    (hu : s.updating = false) (hh : s.hash = []) :
    RistrettoHash.end_update fh s m = ⟨[], false, s.acc + (m : Point) * fh []⟩ ∧
    RistrettoHash.add fh s [] m = (RistrettoHash.end_update fh s m, Except.ok ()) := by
  obtain ⟨hash, upd, a⟩ := s
  simp only at hu hh
  subst hu hh
  exact ⟨rfl, rfl⟩

/-- C9: `finalize_and_reset` has the same outcome (output or failure) as
`finalize` on the same state, and when it succeeds it leaves the instance
in the fresh initial state. -/
theorem finalize_reset_refines (s : RistrettoHash) :
    RistrettoHash.finalize_into_reset s =
      ((if s.updating = true then s else RistrettoHash.empty),
        RistrettoHash.finalize_into s) := by
  by_cases hu : s.updating = true <;>
    simp [RistrettoHash.finalize_into_reset, RistrettoHash.finalize_into,
      RistrettoHash.reset, RistrettoHash.empty, hu]

/-- C10: when `add` or `finalize_and_reset` fails because the pending flag
is set, the state at the moment of the panic is exactly the pre-call state:
the guard precedes every mutation. -/
theorem fail_no_mutation (fh : List ℕ → Point) (s : RistrettoHash) (d : List ℕ)
    (m : ℕ) (hu : s.updating = true) :
    RistrettoHash.add fh s d m = (s, Except.error Error.protocolViolation) ∧
    RistrettoHash.finalize_into_reset s = (s, Except.error Error.protocolViolation) := by
  simp [RistrettoHash.add, RistrettoHash.finalize_into_reset, hu]

/-- Witness for C1 at `x = [7]`, `n = 3`, `m₁ = 1`, `m₂ = 2`. -/
theorem mult_folding_witness :
    RistrettoHash.empty.updating = false ∧ RistrettoHash.empty.hash = [] ∧
    (RistrettoHash.add fhZero RistrettoHash.empty [7] 3 =
        RistrettoHash.addN fhZero RistrettoHash.empty [7] 3 ∧
      (RistrettoHash.add fhZero (RistrettoHash.add fhZero RistrettoHash.empty [7] 1).1
          [7] 2).1 =
        (RistrettoHash.add fhZero RistrettoHash.empty [7] (1 + 2)).1) :=
  ⟨rfl, rfl, mult_folding fhZero RistrettoHash.empty [7] 3 1 2 rfl rfl⟩

/-- Witness for C3 at `c1 = [1]`, `c2 = [2]`, `m = 5`. -/
theorem chunked_equiv_witness :
    RistrettoHash.empty.updating = false ∧
    RistrettoHash.add fhZero RistrettoHash.empty ([1] ++ [2]) 5 =
      (RistrettoHash.end_update fhZero
        ((RistrettoHash.empty.update [1]).update [2]) 5, Except.ok ()) :=
  ⟨rfl, chunked_equiv fhZero RistrettoHash.empty [1] [2] 5 rfl⟩

/-- Witness for C5 at `s = ⟨[], false, 0⟩`, `x = [9]`. -/
theorem zero_mult_witness :
    (⟨[], false, 0⟩ : RistrettoHash).updating = false ∧
    (RistrettoHash.add fhZero ⟨[], false, 0⟩ [9] 0 =
        (⟨[], false, (⟨[], false, 0⟩ : RistrettoHash).acc⟩, Except.ok ()) ∧
      RistrettoHash.finalize_into (RistrettoHash.add fhZero ⟨[], false, 0⟩ [9] 0).1 =
        RistrettoHash.finalize_into ⟨[], false, 0⟩) :=
  ⟨rfl, zero_mult fhZero ⟨[], false, 0⟩ [9] rfl⟩

/-- Witness for C6 on the one-operation trace `[update [1]]`. -/
theorem pending_flag_invariant_witness :
    run fhZero RistrettoHash.empty [Op.update [1]] =
      ((⟨[1], true, 0⟩ : RistrettoHash), Except.ok ()) ∧
    (((⟨[1], true, 0⟩ : RistrettoHash).updating = true ↔
        ∃ d0, [Op.update [1]].getLast? = some (Op.update d0)) ∧
      (RistrettoHash.update ⟨[], false, 0⟩ [2]).updating = true ∧
      (RistrettoHash.end_update fhZero ⟨[], false, 0⟩ 1).updating = false ∧
      (RistrettoHash.reset ⟨[], false, 0⟩).updating = false) :=
  ⟨rfl, pending_flag_invariant fhZero [Op.update [1]] ⟨[1], true, 0⟩ ⟨[], false, 0⟩ [2] 1 rfl⟩

/-- Witness for C8 at `s = ⟨[], false, 0⟩`, `m = 4`. -/
theorem end_update_no_update_witness :
    (⟨[], false, 0⟩ : RistrettoHash).updating = false ∧
    (⟨[], false, 0⟩ : RistrettoHash).hash = [] ∧
    (RistrettoHash.end_update fhZero ⟨[], false, 0⟩ 4 =
        ⟨[], false, (⟨[], false, 0⟩ : RistrettoHash).acc + (4 : Point) * fhZero []⟩ ∧
      RistrettoHash.add fhZero ⟨[], false, 0⟩ [] 4 =
        (RistrettoHash.end_update fhZero ⟨[], false, 0⟩ 4, Except.ok ())) :=
  ⟨rfl, rfl, end_update_no_update fhZero ⟨[], false, 0⟩ 4 rfl rfl⟩

/-- Witness for C10 on the pending state `⟨[3], true, 0⟩`. -/
theorem fail_no_mutation_witness :
    (⟨[3], true, 0⟩ : RistrettoHash).updating = true ∧
    (RistrettoHash.add fhZero ⟨[3], true, 0⟩ [4] 2 =
        ((⟨[3], true, 0⟩ : RistrettoHash), Except.error Error.protocolViolation) ∧
      RistrettoHash.finalize_into_reset ⟨[3], true, 0⟩ =
        ((⟨[3], true, 0⟩ : RistrettoHash), Except.error Error.protocolViolation)) :=
  ⟨rfl, fail_no_mutation fhZero ⟨[3], true, 0⟩ [4] 2 rfl⟩

end MultisetHash

